import Mathlib

/-!
Verification of the music indexing and retrieval engine of the `ai-music`
repository, as a shallow embedding in Lean.

Conventions of the embedding:
* JavaScript numbers are modelled as rationals (`ℚ`); `undefined`-able fields
  as `Option`.  JS truthiness of a number is `≠ 0`, of a string `≠ ""`.
* `String.prototype.toLowerCase` is modelled characterwise by `Char.toLower`
  (`jsLower`); `String.prototype.includes` by substring containment on the
  character lists (`jsIncludes`).
* `Array.prototype.sort` with a consistent comparator `c` is (since ES2019) a
  stable sort; it is modelled by `List.mergeSort` with the Boolean relation
  `le a b := c a b ≤ 0`, which has the same sorted-order and stability
  contract.
* `Math.round x` is `⌊x + 1/2⌋` (`jsRound`); `Math.min(...xs)` / `Math.max`
  are left folds of `min` / `max` over the spread list.
* The file system seen by the scanner is an explicit tree (`FsEntry`); a file
  carries `some meta` when `parseFile` succeeds on it and `none` when parsing
  fails; a missing scan root is the `none` case of `scanDirectory`'s argument.
-/

open List

/-- The `Track` interface of `src/types/index.ts` (the current version, with
the optional `folder` and `folderPath` fields). -/
structure Track where
  id : String
  filePath : String
  filename : String
  title : Option String := none
  artist : Option String := none
  album : Option String := none
  bpm : Option ℚ := none
  key : Option String := none
  duration : Option ℚ := none
  folder : Option String := none
  folderPath : Option String := none
deriving DecidableEq, Repr

/-- JS `toLowerCase`, characterwise. -/
def jsLower (s : String) : String := String.mk (s.data.map Char.toLower)

/-- Does the character list start with `sub`? (helper for `jsIncludes`). -/
def seqStarts : List Char → List Char → Bool
  | _, [] => true
  | [], _ :: _ => false
  | c :: cs, d :: ds => c == d && seqStarts cs ds

/-- Does the character list contain `sub` as a contiguous run? -/
def hasSeq : List Char → List Char → Bool
  | [], sub => sub.isEmpty
  | c :: cs, sub => seqStarts (c :: cs) sub || hasSeq cs sub

/-- JS `s.includes(sub)`: literal substring containment. -/
def jsIncludes (s sub : String) : Bool := hasSeq s.data sub.data

/-- Truthiness of an optional JS number (`undefined` and `0` are falsy). -/
def numTruthy : Option ℚ → Bool
  | none => false
  | some q => decide (q ≠ 0)

/-- `SearchEngine.filterByBpm` of `src/lib/search-engine.ts`:
`tracks.filter(track => track.bpm && track.bpm >= min && track.bpm <= max)`. -/
def filterByBpm (tracks : List Track) (min max : ℚ) : List Track :=
  tracks.filter fun track =>
    match track.bpm with
    | none => false
    | some b => decide (b ≠ 0) && decide (min ≤ b) && decide (b ≤ max)

/-- `SearchEngine.filterByFolder`:
`tracks.filter(track => track.folder?.toLowerCase().includes(lowerFolder))`
where `lowerFolder = folderName.toLowerCase()`. -/
def filterByFolder (tracks : List Track) (folderName : String) : List Track :=
  let lowerFolder := jsLower folderName
  tracks.filter fun track =>
    match track.folder with
    | none => false
    | some f => jsIncludes (jsLower f) lowerFolder

/-- JS `Math.round`. -/
def jsRound (q : ℚ) : ℤ := ⌊q + 1/2⌋

/-- The `{min, max, avg}` record returned by `getBpmStats` (integer-rounded). -/
structure BpmStats where
  min : ℤ
  max : ℤ
  avg : ℤ
deriving DecidableEq, Repr

/-- `SearchEngine.getBpmStats`: filter to tracks with truthy `bpm`, return
`null` when none remain, otherwise the rounded min, max and mean. -/
def getBpmStats (tracks : List Track) : Option BpmStats :=
  let tracksWithBpm := tracks.filter fun track => numTruthy track.bpm
  let bpms := tracksWithBpm.filterMap fun track => track.bpm
  match bpms with
  | [] => none
  | b :: bs =>
    some { min := jsRound (bs.foldl Min.min b),
           max := jsRound (bs.foldl Max.max b),
           avg := jsRound ((b :: bs).foldl (· + ·) 0 / ((b :: bs).length : ℚ)) }

/-- One `Map` update of the counting loops of `getTopArtists` / `getTopAlbums`
/ `getTopFolders`: increment the entry in place, or append a fresh key at the
end (JS `Map` preserves insertion order). -/
def bump : List (String × Nat) → String → List (String × Nat)
  | [], s => [(s, 1)]
  | (k, c) :: rest, s => if k = s then (k, c + 1) :: rest else (k, c) :: bump rest s

/-- One iteration of the counting `forEach`: `if (track.field) ...` (absent or
empty-string fields are falsy and skipped). -/
def countStep (field : Track → Option String) (acc : List (String × Nat)) (track : Track) :
    List (String × Nat) :=
  match field track with
  | none => acc
  | some s => if s ≠ "" then bump acc s else acc

/-- The contents of the counting `Map`, in insertion (= first-encounter) order. -/
def fieldCounts (field : Track → Option String) (tracks : List Track) : List (String × Nat) :=
  tracks.foldl (countStep field) []

/-- The comparator `(a, b) => b.count - a.count` as a Boolean relation
(`c a b ≤ 0`, i.e. non-increasing count). -/
def countLE (x y : String × Nat) : Bool := decide (y.2 ≤ x.2)

/-- The counted entries sorted by descending count (stable). -/
def sortedCounts (field : Track → Option String) (tracks : List Track) : List (String × Nat) :=
  (fieldCounts field tracks).mergeSort countLE

/-- Common body of `getTopArtists` / `getTopAlbums` / `getTopFolders`: count,
sort descending by count, truncate to `limit`. -/
def topByField (field : Track → Option String) (tracks : List Track) (limit : Nat) :
    List (String × Nat) :=
  (sortedCounts field tracks).take limit

/-- `SearchEngine.getTopArtists`. -/
def getTopArtists (tracks : List Track) (limit : Nat) : List (String × Nat) :=
  topByField (fun t => t.artist) tracks limit

/-- `SearchEngine.getTopAlbums`. -/
def getTopAlbums (tracks : List Track) (limit : Nat) : List (String × Nat) :=
  topByField (fun t => t.album) tracks limit

/-- `SearchEngine.getTopFolders`. -/
def getTopFolders (tracks : List Track) (limit : Nat) : List (String × Nat) :=
  topByField (fun t => t.folder) tracks limit

/-- The `sortBy` argument of `SearchEngine.sortTracks`. -/
inductive SortField where
  | title
  | artist
  | album
  | bpm
deriving DecidableEq, Repr

/-- The `order` argument of `SearchEngine.sortTracks`. -/
inductive SortOrder where
  | asc
  | desc
deriving DecidableEq, Repr

/-- The `aVal` computed by the comparator of `sortTracks`: string fields are
lower-cased with `|| ''` for a missing value, `bpm` uses `|| 0`. -/
def sortKey (sortBy : SortField) (t : Track) : String ⊕ ℚ :=
  match sortBy with
  | .title => .inl (jsLower (t.title.getD ""))
  | .artist => .inl (jsLower (t.artist.getD ""))
  | .album => .inl (jsLower (t.album.getD ""))
  | .bpm => .inr (t.bpm.getD 0)

/-- `≤` on sort keys (`<` / `>` of the comparator); the mixed constructor
cases never arise for a fixed `sortBy` and are ordered `inl ≤ inr`. -/
def keyLE : String ⊕ ℚ → String ⊕ ℚ → Bool
  | .inl a, .inl b => decide (a ≤ b)
  | .inr a, .inr b => decide (a ≤ b)
  | .inl _, .inr _ => true
  | .inr _, .inl _ => false

/-- The comparator of `sortTracks` as a Boolean relation (`c a b ≤ 0`): for
`asc` the key of `a` is `≤` the key of `b`, for `desc` the reverse. -/
def trackLE (sortBy : SortField) (order : SortOrder) (a b : Track) : Bool :=
  match order with
  | .asc => keyLE (sortKey sortBy a) (sortKey sortBy b)
  | .desc => keyLE (sortKey sortBy b) (sortKey sortBy a)

/-- `SearchEngine.sortTracks`: `[...tracks].sort(comparator)` — a stable sort
of a copy of the input. -/
def sortTracks (tracks : List Track) (sortBy : SortField) (order : SortOrder) : List Track :=
  tracks.mergeSort (trackLE sortBy order)

/-- The `summary` object of the large-result response of `searchMusic` /
`filterByBpm` in `src/app/api/chat/route.ts`. -/
structure SearchSummary where
  total : Nat
  showing : Nat
  topArtists : List (String × Nat)
  topAlbums : List (String × Nat)
  bpmStats : Option BpmStats
  decades : List (String × Nat)
deriving DecidableEq, Repr

/-- The response shape returned by the tool executors (fields that a branch
does not set are `none`, i.e. absent in the JS object literal). -/
structure SearchResponse where
  type : String
  total : Nat
  showing : Option Nat := none
  topTracks : Option (List Track) := none
  summary : Option SearchSummary := none
  tracks : Option (List Track) := none
  grouped : Option Bool := none
deriving DecidableEq, Repr

/-- The result shaper of `searchMusic` / `filterByBpm` in
`src/app/api/chat/route.ts`: `> 50` yields a summary (first 10 tracks shown,
top-5 artist/album aggregates and BPM stats over the whole result set),
`> 10` the full list with `grouped: true`, otherwise the plain full list. -/
def shapeResults (results : List Track) : SearchResponse :=
  if results.length > 50 then
    let topTracks := results.take 10
    { type := "summary",
      total := results.length,
      showing := some topTracks.length,
      topTracks := some topTracks,
      summary := some { total := results.length,
                        showing := topTracks.length,
                        topArtists := getTopArtists results 5,
                        topAlbums := getTopAlbums results 5,
                        bpmStats := getBpmStats results,
                        decades := [] } }
  else if results.length > 10 then
    { type := "full", total := results.length, tracks := some results, grouped := some true }
  else
    { type := "full", total := results.length, tracks := some results }

/-- Return value of the `addToSetlist` / `playMusic` tool executors: either
the JS object with an `error` field, or the one with `action` and `track`. -/
inductive ToolResult where
  | error (msg : String)
  | action (name : String) (track : Track)
deriving DecidableEq, Repr

/-- `addToSetlist` of `src/lib/ai/tools.ts`:
`getAllTracks().find(t => t.id === trackId)`, `{error}` when absent. -/
def addToSetlist (tracks : List Track) (trackId : String) : ToolResult :=
  match tracks.find? (fun t => t.id == trackId) with
  | none => .error "Track not found"
  | some track => .action "add" track

/-- `playMusic` of `src/lib/ai/tools.ts`. -/
def playMusic (tracks : List Track) (trackId : String) : ToolResult :=
  match tracks.find? (fun t => t.id == trackId) with
  | none => .error "Track not found"
  | some track => .action "play" track

/-- The metadata `parseFile` extracts from one audio file (`common` and
`format` fields the scanner reads). -/
structure FileMeta where
  title : Option String := none
  artist : Option String := none
  album : Option String := none
  bpm : Option ℚ := none
  key : Option String := none
  duration : Option ℚ := none
deriving DecidableEq, Repr

/-- A directory tree: a file (with `some` metadata when parseable) or a
directory with entries. -/
inductive FsEntry where
  | file (name : String) (meta : Option FileMeta)
  | dir (name : String) (entries : List FsEntry)

/-- Node's `path.extname`: the suffix from the last `.` of the name, `""`
when there is no dot or the only dot is the leading character. -/
def extname (name : String) : String :=
  let rev := name.data.reverse
  match rev.dropWhile (fun c => c ≠ '.') with
  | [] => ""
  | _ :: rest =>
    if rest = [] then ""
    else String.mk ('.' :: (rev.takeWhile (fun c => c ≠ '.')).reverse)

/-- The scanner's audio-file test:
`path.extname(entry.name).toLowerCase() === '.mp3'`. -/
def isMp3 (name : String) : Bool := jsLower (extname name) == ".mp3"

mutual

/-- One entry of `MusicManager.scanDirectory`'s recursive `scan`: recurse into
directories, and push a `Track` for each parseable `.mp3` file.  The pushed
object is exactly the literal of `src/lib/music-manager.ts` (note: it sets no
`folder` or `folderPath` field). -/
def scanEntry (dirPath : String) : FsEntry → List Track
  | .dir name entries => scanList (dirPath ++ "/" ++ name) entries
  | .file name meta =>
    if isMp3 name then
      match meta with
      | none => []
      | some m =>
        [{ id := dirPath ++ "/" ++ name,
           filePath := dirPath ++ "/" ++ name,
           filename := name,
           title := some (match m.title with | some t => if t = "" then name else t | none => name),
           artist := m.artist,
           album := m.album,
           bpm := m.bpm,
           key := m.key,
           duration := m.duration }]
    else []

/-- The tracks collected from a list of sibling entries. -/
def scanList (dirPath : String) : List FsEntry → List Track
  | [] => []
  | e :: es => scanEntry dirPath e ++ scanList dirPath es

end

mutual

/-- Does the tree contain a file with an `.mp3` extension? -/
def entryHasMp3 : FsEntry → Bool
  | .file name _ => isMp3 name
  | .dir _ entries => listHasMp3 entries

/-- Does any sibling entry contain an `.mp3` file? -/
def listHasMp3 : List FsEntry → Bool
  | [] => false
  | e :: es => entryHasMp3 e || listHasMp3 es

end

/-- `MusicManager.scanDirectory`: a missing root (`fs.access` throws) returns
`[]`; otherwise the recursive scan of the root's entries. -/
def scanDirectory (root : Option (List FsEntry)) (rootDir : String) : List Track :=
  match root with
  | none => []
  | some entries => scanList rootDir entries

/-- Index of the first track whose field equals `s` — "first encountered". -/
def firstIdx (field : Track → Option String) (tracks : List Track) (s : String) : Nat :=
  tracks.findIdx (fun t => field t == some s)

/-- The contract common to `getTopArtists`, `getTopAlbums` and
`getTopFolders` over the respective field: at most `k` entries; every entry's
key comes from a track of the subset with that field present; counts are
non-increasing; every counted-but-omitted entry's count is at most every
returned count; and two returned entries with equal counts appear in
first-encounter order of their key in the input list. -/
def TopSpecFor (field : Track → Option String) (top : List Track → Nat → List (String × Nat)) :
    Prop :=
  ∀ (tracks : List Track) (k : Nat),
    (top tracks k).length ≤ k ∧
    (∀ e ∈ top tracks k, ∃ t ∈ tracks, field t = some e.1) ∧
    (top tracks k).Pairwise (fun x y => y.2 ≤ x.2) ∧
    (∀ e₁ ∈ fieldCounts field tracks, e₁ ∉ top tracks k →
        ∀ e₂ ∈ top tracks k, e₁.2 ≤ e₂.2) ∧
    (∀ e₁ e₂, e₁ ∈ top tracks k → e₂ ∈ top tracks k → e₁.2 = e₂.2 →
        firstIdx field tracks e₁.1 < firstIdx field tracks e₂.1 →
        [e₁, e₂] <+ top tracks k)

/-- A track whose BPM tag is present and equal to 0 (a legal tag value, which
JS truthiness treats like an absent one). -/
def bpmZeroTrack : Track :=
  { id := "/music/zero.mp3", filePath := "/music/zero.mp3", filename := "zero.mp3",
    bpm := some 0 }

/-- A track living in the folder `"@Eurodance Brazil"`. -/
def euroTrack : Track :=
  { id := "/music/@Eurodance Brazil/freedom.mp3",
    filePath := "/music/@Eurodance Brazil/freedom.mp3",
    filename := "freedom.mp3",
    title := some "Freedom",
    folder := some "@Eurodance Brazil",
    folderPath := some "@Eurodance Brazil" }

/-- `parseFile` output for the fixture file used in the scanner theorems. -/
def euroFileMeta : FileMeta :=
  { title := some "Freedom", artist := some "DJ X", bpm := some 140, duration := some 245 }

/-- A scan root containing one parseable MP3 inside the folder
`"@Eurodance Brazil"`. -/
def euroTree : List FsEntry :=
  [.dir "@Eurodance Brazil" [.file "freedom.mp3" (some euroFileMeta)]]

/-! ### Substring containment -/

theorem seqStarts_iff (sub l : List Char) : seqStarts l sub = true ↔ ∃ suf, l = sub ++ suf := by
  induction sub generalizing l with
  | nil => simp [seqStarts]
  | cons d ds ih =>
    cases l with
    | nil => simp [seqStarts]
    | cons c cs =>
      simp only [seqStarts, Bool.and_eq_true, beq_iff_eq, ih]
      constructor
      · rintro ⟨rfl, suf, rfl⟩
        exact ⟨suf, rfl⟩
      · rintro ⟨suf, h⟩
        injection h with h1 h2
        exact ⟨h1, suf, h2⟩

theorem hasSeq_iff (l sub : List Char) : hasSeq l sub = true ↔ ∃ pre suf, l = pre ++ sub ++ suf := by
  induction l with
  | nil =>
    constructor
    · intro h
      have hsub : sub = [] := by simpa [hasSeq] using h
      exact ⟨[], [], by simp [hsub]⟩
    · rintro ⟨pre, suf, h⟩
      have h' : pre ++ sub ++ suf = [] := h.symm
      simp only [List.append_eq_nil] at h'
      simp [hasSeq, h'.1.2]
  | cons c cs ih =>
    simp only [hasSeq, Bool.or_eq_true, ih, seqStarts_iff]
    constructor
    · rintro (⟨suf, h⟩ | ⟨pre, suf, h⟩)
      · exact ⟨[], suf, by simpa using h⟩
      · exact ⟨c :: pre, suf, by simpa using h⟩
    · rintro ⟨pre, suf, h⟩
      cases pre with
      | nil =>
        exact Or.inl ⟨suf, by simpa using h⟩
      | cons p ps =>
        injection h with h1 h2
        exact Or.inr ⟨ps, suf, h2⟩

/-- C1 counterexample: a track whose BPM tag is present and equal to `0` lies
inside the range `[0, 10]`, yet `filterByBpm 0 10` does not return it (the JS
guard `track.bpm &&` treats the value 0 as absent). -/
theorem filterByBpm_zero_bpm_counterexample :
    bpmZeroTrack.bpm = some 0 ∧ (0:ℚ) ≤ 0 ∧ (0:ℚ) ≤ 10 ∧
      bpmZeroTrack ∉ filterByBpm [bpmZeroTrack] 0 10 := by
  refine ⟨rfl, le_refl 0, by norm_num, ?_⟩
  decide

/-- C1 (amended): `filterByBpm min max` returns exactly the tracks whose BPM
field is present, nonzero, and within `[min, max]` inclusive; tracks with an
absent (or zero) BPM are never returned. -/
theorem filterByBpm_mem_iff (tracks : List Track) (min max : ℚ) (t : Track) :
    t ∈ filterByBpm tracks min max ↔
      t ∈ tracks ∧ ∃ b, t.bpm = some b ∧ b ≠ 0 ∧ min ≤ b ∧ b ≤ max := by
  simp only [filterByBpm, List.mem_filter]
  constructor
  · rintro ⟨ht, hp⟩
    refine ⟨ht, ?_⟩
    cases hb : t.bpm with
    | none => simp [hb] at hp
    | some b =>
      rw [hb] at hp
      simp only [Bool.and_eq_true, decide_eq_true_eq] at hp
      exact ⟨b, rfl, hp.1.1, hp.1.2, hp.2⟩
  · rintro ⟨ht, b, hb, hne, hlo, hhi⟩
    refine ⟨ht, ?_⟩
    rw [hb]
    simp [hne, hlo, hhi]

/-- C7: folder filtering is literal, case-insensitive substring containment —
a track with a folder is returned iff the lower-cased folder name contains the
lower-cased query as a contiguous substring (punctuation such as `@` is an
ordinary character); in particular the folder `"@Eurodance Brazil"` matches
the queries `"eurodance brazil"` and `"@eurodance"`, and a track with no
folder field is never returned. -/
theorem filterByFolder_spec :
    (∀ (tracks : List Track) (q : String) (t : Track),
        t ∈ filterByFolder tracks q ↔
          t ∈ tracks ∧ ∃ f, t.folder = some f ∧
            ∃ pre suf, (jsLower f).data = pre ++ (jsLower q).data ++ suf) ∧
    euroTrack ∈ filterByFolder [euroTrack] "eurodance brazil" ∧
    euroTrack ∈ filterByFolder [euroTrack] "@eurodance" ∧
    (∀ (tracks : List Track) (q : String) (t : Track),
        t ∈ filterByFolder tracks q → t.folder ≠ none) := by
  have main : ∀ (tracks : List Track) (q : String) (t : Track),
      t ∈ filterByFolder tracks q ↔
        t ∈ tracks ∧ ∃ f, t.folder = some f ∧
          ∃ pre suf, (jsLower f).data = pre ++ (jsLower q).data ++ suf := by
    intro tracks q t
    simp only [filterByFolder, List.mem_filter]
    constructor
    · rintro ⟨ht, hp⟩
      refine ⟨ht, ?_⟩
      cases hf : t.folder with
      | none => simp [hf] at hp
      | some f =>
        rw [hf] at hp
        exact ⟨f, rfl, (hasSeq_iff _ _).mp hp⟩
    · rintro ⟨ht, f, hf, pre, suf, hps⟩
      refine ⟨ht, ?_⟩
      rw [hf]
      exact (hasSeq_iff _ _).mpr ⟨pre, suf, hps⟩
  refine ⟨main, by decide, by decide, ?_⟩
  intro tracks q t ht hnone
  rcases (main tracks q t).mp ht with ⟨-, f, hf, -⟩
  rw [hnone] at hf
  cases hf

/-- C9: resolving a track by id in `addToSetlist` / `playMusic` yields the
explicit `error` result when no track has the id, yields an `action` result
carrying a track with that id when one exists, and the two outcomes are
distinct values. -/
theorem lookupById_spec (tracks : List Track) (trackId : String) :
    ((∀ t ∈ tracks, t.id ≠ trackId) →
        addToSetlist tracks trackId = .error "Track not found" ∧
        playMusic tracks trackId = .error "Track not found") ∧
    ((∃ t ∈ tracks, t.id = trackId) →
        ∃ t ∈ tracks, t.id = trackId ∧
          addToSetlist tracks trackId = .action "add" t ∧
          playMusic tracks trackId = .action "play" t) ∧
    (∀ msg nm t, ToolResult.error msg ≠ ToolResult.action nm t) := by
  refine ⟨?_, ?_, ?_⟩
  · intro h
    have hf : tracks.find? (fun t => t.id == trackId) = none := by
      rw [List.find?_eq_none]
      intro t ht
      simp [h t ht]
    exact ⟨by simp [addToSetlist, hf], by simp [playMusic, hf]⟩
  · rintro ⟨t, ht, hid⟩
    cases hf : tracks.find? (fun t => t.id == trackId) with
    | none =>
      exfalso
      rw [List.find?_eq_none] at hf
      exact hf t ht (by simp [hid])
    | some u =>
      refine ⟨u, List.mem_of_find?_eq_some hf, ?_, ?_, ?_⟩
      · simpa using List.find?_some hf
      · simp [addToSetlist, hf]
      · simp [playMusic, hf]
  · intro msg nm t h
    cases h

/-- C10: `sortTracks` returns a permutation of its input (no track is added,
dropped or duplicated); the input list itself is a copied, unmutated value in
this pure embedding. -/
theorem sortTracks_perm (tracks : List Track) (sortBy : SortField) (order : SortOrder) :
    sortTracks tracks sortBy order ~ tracks :=
  List.mergeSort_perm tracks (trackLE sortBy order)

/-- C2: with thresholds 50 and 10, a result set of size `n > 50` yields a
summary response with `total = n`, the first 10 tracks, and artist/album/BPM
aggregates computed over the whole result set; `10 < n ≤ 50` yields the full
list with `grouped: true`; `n ≤ 10` yields the full list with no grouping
flag. -/
theorem shapeResults_spec (results : List Track) :
    (50 < results.length →
        (shapeResults results).type = "summary" ∧
        (shapeResults results).total = results.length ∧
        (shapeResults results).topTracks = some (results.take 10) ∧
        (shapeResults results).summary =
          some { total := results.length,
                 showing := (results.take 10).length,
                 topArtists := getTopArtists results 5,
                 topAlbums := getTopAlbums results 5,
                 bpmStats := getBpmStats results,
                 decades := [] }) ∧
    (10 < results.length → results.length ≤ 50 →
        shapeResults results =
          { type := "full", total := results.length,
            tracks := some results, grouped := some true }) ∧
    (results.length ≤ 10 →
        shapeResults results =
          { type := "full", total := results.length, tracks := some results }) := by
  refine ⟨?_, ?_, ?_⟩
  · intro h
    simp [shapeResults, h]
  · intro h1 h2
    have h50 : ¬ results.length > 50 := by omega
    simp [shapeResults, h50, h1]
  · intro h
    have h50 : ¬ results.length > 50 := by omega
    have h10 : ¬ results.length > 10 := by omega
    simp [shapeResults, h50, h10]

/-- C3 (code bug): scanning a root whose MP3 sits in the subfolder
`"@Eurodance Brazil"` produces a track whose `folder` and `folderPath` fields
are absent — the scanner's pushed object literal never sets them, although the
`Track` type documents them and the folder-filtering features depend on them. -/
theorem scanDirectory_folder_fields_missing :
    scanDirectory (some euroTree) "/music" =
      [{ id := "/music/@Eurodance Brazil/freedom.mp3",
         filePath := "/music/@Eurodance Brazil/freedom.mp3",
         filename := "freedom.mp3",
         title := some "Freedom",
         artist := some "DJ X",
         bpm := some 140,
         duration := some 245,
         folder := none,
         folderPath := none }] := by
  decide

mutual

theorem scanEntry_nil_of_noMp3 (dirPath : String) (e : FsEntry) (h : entryHasMp3 e = false) :
    scanEntry dirPath e = [] := by
  cases e with
  | file name meta =>
    simp only [entryHasMp3] at h
    simp [scanEntry, h]
  | dir name entries =>
    simp only [entryHasMp3] at h
    simpa [scanEntry] using scanList_nil_of_noMp3 (dirPath ++ "/" ++ name) entries h

theorem scanList_nil_of_noMp3 (dirPath : String) (es : List FsEntry) (h : listHasMp3 es = false) :
    scanList dirPath es = [] := by
  cases es with
  | nil => simp [scanList]
  | cons e es =>
    simp only [listHasMp3, Bool.or_eq_false_iff] at h
    simp [scanList, scanEntry_nil_of_noMp3 dirPath e h.1, scanList_nil_of_noMp3 dirPath es h.2]

end

/-- C8: scanning a missing root directory returns the empty collection (the
`fs.access` failure is caught), and scanning a root that contains no
`.mp3` file returns the empty collection; both paths are total, so no error
escapes. -/
theorem scanDirectory_missing_or_empty (rootDir : String) (entries : List FsEntry) :
    scanDirectory none rootDir = [] ∧
    (listHasMp3 entries = false → scanDirectory (some entries) rootDir = []) := by
  constructor
  · rfl
  · intro h
    simpa [scanDirectory] using scanList_nil_of_noMp3 rootDir entries h

/-! ### BPM statistics -/

theorem getBpmStats_eq (tracks : List Track) :
    getBpmStats tracks =
      match (tracks.filter fun track => numTruthy track.bpm).filterMap (fun track => track.bpm) with
      | [] => none
      | b :: bs =>
        some { min := jsRound (bs.foldl Min.min b),
               max := jsRound (bs.foldl Max.max b),
               avg := jsRound ((b :: bs).foldl (· + ·) 0 / ((b :: bs).length : ℚ)) } := rfl

theorem jsRound_mono {a b : ℚ} (h : a ≤ b) : jsRound a ≤ jsRound b :=
  Int.floor_mono (by linarith)

theorem foldl_min_le (bs : List ℚ) : ∀ (b x : ℚ), x ∈ b :: bs → bs.foldl Min.min b ≤ x := by
  induction bs with
  | nil =>
    intro b x hx
    have : x = b := by simpa using hx
    simp [this]
  | cons c cs ih =>
    intro b x hx
    simp only [List.foldl_cons]
    rcases List.mem_cons.mp hx with rfl | hx'
    · exact le_trans (ih (Min.min x c) (Min.min x c) (List.mem_cons_self _ _)) (min_le_left _ _)
    · rcases List.mem_cons.mp hx' with rfl | hx''
      · exact le_trans (ih (Min.min b x) (Min.min b x) (List.mem_cons_self _ _)) (min_le_right _ _)
      · exact ih (Min.min b c) x (List.mem_cons_of_mem _ hx'')

theorem le_foldl_max (bs : List ℚ) : ∀ (b x : ℚ), x ∈ b :: bs → x ≤ bs.foldl Max.max b := by
  induction bs with
  | nil =>
    intro b x hx
    have : x = b := by simpa using hx
    simp [this]
  | cons c cs ih =>
    intro b x hx
    simp only [List.foldl_cons]
    rcases List.mem_cons.mp hx with rfl | hx'
    · exact le_trans (le_max_left _ _) (ih (Max.max x c) (Max.max x c) (List.mem_cons_self _ _))
    · rcases List.mem_cons.mp hx' with rfl | hx''
      · exact le_trans (le_max_right _ _) (ih (Max.max b x) (Max.max b x) (List.mem_cons_self _ _))
      · exact ih (Max.max b c) x (List.mem_cons_of_mem _ hx'')

theorem foldl_add_eq_sum (l : List ℚ) (a : ℚ) : l.foldl (· + ·) a = a + l.sum := by
  induction l generalizing a with
  | nil => simp
  | cons x xs ih => simp [List.foldl_cons, ih, add_assoc]

theorem length_mul_le_sum (l : List ℚ) (m : ℚ) (h : ∀ x ∈ l, m ≤ x) :
    (l.length : ℚ) * m ≤ l.sum := by
  induction l with
  | nil => simp
  | cons x xs ih =>
    have hx := h x (List.mem_cons_self _ _)
    have ihs := ih (fun y hy => h y (List.mem_cons_of_mem _ hy))
    simp only [List.length_cons, List.sum_cons]
    push_cast
    nlinarith

theorem sum_le_length_mul (l : List ℚ) (m : ℚ) (h : ∀ x ∈ l, x ≤ m) :
    l.sum ≤ (l.length : ℚ) * m := by
  induction l with
  | nil => simp
  | cons x xs ih =>
    have hx := h x (List.mem_cons_self _ _)
    have ihs := ih (fun y hy => h y (List.mem_cons_of_mem _ hy))
    simp only [List.length_cons, List.sum_cons]
    push_cast
    nlinarith

/-- C4 counterexample: a track with a present BPM tag equal to `0` makes
`getBpmStats` return `null` even though a BPM field is present in the subset
(the truthiness filter `track.bpm` drops the value 0). -/
theorem getBpmStats_zero_bpm_counterexample :
    bpmZeroTrack.bpm = some 0 ∧ getBpmStats [bpmZeroTrack] = none := by
  decide

/-- C4 (amended): `getBpmStats` returns `null` iff no track in the subset has
a present, nonzero BPM (a BPM tag equal to 0 is treated like an absent one);
otherwise it returns integer-rounded min, max and mean over the tracks with a
nonzero BPM, and the reported integers satisfy `min ≤ mean ≤ max`. -/
theorem getBpmStats_spec (tracks : List Track) :
    (getBpmStats tracks = none ↔ ∀ t ∈ tracks, ∀ b, t.bpm = some b → b = 0) ∧
    (∀ s, getBpmStats tracks = some s → s.min ≤ s.avg ∧ s.avg ≤ s.max) := by
  constructor
  · constructor
    · intro h0 t ht b hb
      by_contra hbne
      have htf : t ∈ tracks.filter fun track => numTruthy track.bpm := by
        rw [List.mem_filter]
        refine ⟨ht, ?_⟩
        simp only [numTruthy, hb]
        exact decide_eq_true hbne
      have hbm : b ∈ (tracks.filter fun track => numTruthy track.bpm).filterMap
          fun track => track.bpm := by
        rw [List.mem_filterMap]
        exact ⟨t, htf, hb⟩
      rw [getBpmStats_eq] at h0
      cases hcase : (tracks.filter fun track => numTruthy track.bpm).filterMap
          fun track => track.bpm with
      | nil => rw [hcase] at hbm; cases hbm
      | cons c cs => rw [hcase] at h0; cases h0
    · intro hall
      have hfil : (tracks.filter fun track => numTruthy track.bpm) = [] := by
        rw [List.filter_eq_nil_iff]
        intro t ht
        cases hb : t.bpm with
        | none => simp [numTruthy, hb]
        | some b =>
          have hz := hall t ht b hb
          simp [numTruthy, hb, hz]
      rw [getBpmStats_eq, hfil]
      rfl
  · intro s hs
    rw [getBpmStats_eq] at hs
    cases hb : (tracks.filter fun track => numTruthy track.bpm).filterMap
        fun track => track.bpm with
    | nil => rw [hb] at hs; cases hs
    | cons b bs =>
      rw [hb] at hs
      have hmem : ∀ x ∈ b :: bs, bs.foldl Min.min b ≤ x := foldl_min_le bs b
      have hmax : ∀ x ∈ b :: bs, x ≤ bs.foldl Max.max b := le_foldl_max bs b
      have hn : (0:ℚ) < ((b :: bs).length : ℚ) := by
        exact_mod_cast Nat.succ_pos bs.length
      have hsum_lo : ((b :: bs).length : ℚ) * (bs.foldl Min.min b) ≤ (b :: bs).sum :=
        length_mul_le_sum _ _ hmem
      have hsum_hi : (b :: bs).sum ≤ ((b :: bs).length : ℚ) * (bs.foldl Max.max b) :=
        sum_le_length_mul _ _ hmax
      have havg : (b :: bs).foldl (· + ·) 0 / ((b :: bs).length : ℚ)
          = (b :: bs).sum / ((b :: bs).length : ℚ) := by
        rw [foldl_add_eq_sum, zero_add]
      have hlo : bs.foldl Min.min b ≤ (b :: bs).foldl (· + ·) 0 / ((b :: bs).length : ℚ) := by
        rw [havg, le_div_iff₀ hn]
        calc bs.foldl Min.min b * ((b :: bs).length : ℚ)
            = ((b :: bs).length : ℚ) * bs.foldl Min.min b := by ring
          _ ≤ _ := hsum_lo
      have hhi : (b :: bs).foldl (· + ·) 0 / ((b :: bs).length : ℚ) ≤ bs.foldl Max.max b := by
        rw [havg, div_le_iff₀ hn]
        calc (b :: bs).sum ≤ ((b :: bs).length : ℚ) * bs.foldl Max.max b := hsum_hi
          _ = bs.foldl Max.max b * ((b :: bs).length : ℚ) := by ring
      cases hs
      exact ⟨jsRound_mono hlo, jsRound_mono hhi⟩

/-! ### Sorting -/

theorem keyLE_trans (a b c : String ⊕ ℚ) (hab : keyLE a b = true) (hbc : keyLE b c = true) :
    keyLE a c = true := by
  rcases a with sa | qa <;> rcases b with sb | qb <;> rcases c with sc | qc <;>
      simp only [keyLE, decide_eq_true_eq, Bool.false_eq_true] at hab hbc ⊢ <;>
      first
        | trivial
        | exact le_trans hab hbc

theorem keyLE_total (a b : String ⊕ ℚ) : (keyLE a b || keyLE b a) = true := by
  rcases a with sa | qa <;> rcases b with sb | qb <;>
      simp only [keyLE, Bool.or_eq_true, decide_eq_true_eq] <;>
      first
        | exact le_total _ _
        | simp

theorem keyLE_refl (a : String ⊕ ℚ) : keyLE a a = true := by
  rcases a with sa | qa <;> simp [keyLE]

theorem trackLE_trans (sortBy : SortField) (order : SortOrder) (a b c : Track)
    (hab : trackLE sortBy order a b = true) (hbc : trackLE sortBy order b c = true) :
    trackLE sortBy order a c = true := by
  cases order with
  | asc => exact keyLE_trans _ _ _ hab hbc
  | desc => exact keyLE_trans _ _ _ hbc hab

theorem trackLE_total (sortBy : SortField) (order : SortOrder) (a b : Track) :
    (trackLE sortBy order a b || trackLE sortBy order b a) = true := by
  cases order with
  | asc => exact keyLE_total _ _
  | desc => exact keyLE_total _ _

/-- C6: `sortTracks` sorts by the comparator's key (string fields case-folded
with a missing field read as `""`, a missing BPM read as `0`), for both
orders, and it is stable: two tracks with equal sort keys keep their relative
input order in the output. -/
theorem sortTracks_sorted_and_stable (tracks : List Track) (sortBy : SortField)
    (order : SortOrder) :
    (sortTracks tracks sortBy order).Pairwise
        (fun a b => trackLE sortBy order a b = true) ∧
    (∀ a b, sortKey sortBy a = sortKey sortBy b → [a, b] <+ tracks →
        [a, b] <+ sortTracks tracks sortBy order) := by
  constructor
  · exact List.sorted_mergeSort (trackLE_trans sortBy order) (trackLE_total sortBy order) tracks
  · intro a b hkey hsub
    apply List.sublist_mergeSort (trackLE_trans sortBy order) (trackLE_total sortBy order) ?_ hsub
    refine List.pairwise_pair.mpr ?_
    cases order with
    | asc =>
      show keyLE (sortKey sortBy a) (sortKey sortBy b) = true
      rw [hkey]
      exact keyLE_refl _
    | desc =>
      show keyLE (sortKey sortBy b) (sortKey sortBy a) = true
      rw [hkey]
      exact keyLE_refl _

/-! ### Top-N aggregates -/

theorem bump_keys (acc : List (String × Nat)) (s : String) :
    (bump acc s).map Prod.fst =
      if s ∈ acc.map Prod.fst then acc.map Prod.fst else acc.map Prod.fst ++ [s] := by
  induction acc with
  | nil => simp [bump]
  | cons e rest ih =>
    obtain ⟨k, c⟩ := e
    by_cases hk : k = s
    · subst hk
      simp [bump]
    · by_cases hmem : s ∈ rest.map Prod.fst
      · simp [bump, hk, ih, hmem, Ne.symm hk]
      · simp [bump, hk, ih, hmem, Ne.symm hk]

theorem countStep_keys (field : Track → Option String) (acc : List (String × Nat)) (t : Track) :
    (countStep field acc t).map Prod.fst = acc.map Prod.fst ∨
      ∃ v, field t = some v ∧ v ≠ "" ∧ v ∉ acc.map Prod.fst ∧
        (countStep field acc t).map Prod.fst = acc.map Prod.fst ++ [v] := by
  cases hft : field t with
  | none => exact Or.inl (by simp [countStep, hft])
  | some v =>
    by_cases hv : v = ""
    · exact Or.inl (by simp [countStep, hft, hv])
    · by_cases hmem : v ∈ acc.map Prod.fst
      · exact Or.inl (by simp [countStep, hft, hv, bump_keys, hmem])
      · exact Or.inr ⟨v, rfl, hv, hmem, by simp [countStep, hft, hv, bump_keys, hmem]⟩

theorem keys_foldl_mem (field : Track → Option String) :
    ∀ (ts : List Track) (acc : List (String × Nat)) (s : String),
      s ∈ (ts.foldl (countStep field) acc).map Prod.fst →
      s ∈ acc.map Prod.fst ∨ ∃ t ∈ ts, field t = some s ∧ s ≠ "" := by
  intro ts
  induction ts with
  | nil => exact fun acc s h => Or.inl h
  | cons t ts ih =>
    intro acc s h
    rw [List.foldl_cons] at h
    rcases ih _ s h with hacc | ⟨u, hu, hf⟩
    · rcases countStep_keys field acc t with hsame | ⟨v, hft, hvne, hvmem, hkeys⟩
      · rw [hsame] at hacc
        exact Or.inl hacc
      · rw [hkeys] at hacc
        rcases List.mem_append.mp hacc with h' | h'
        · exact Or.inl h'
        · have hsv : s = v := by simpa using h'
          subst hsv
          exact Or.inr ⟨t, List.mem_cons_self _ _, hft, hvne⟩
    · exact Or.inr ⟨u, List.mem_cons_of_mem _ hu, hf⟩

theorem keys_foldl_nodup (field : Track → Option String) :
    ∀ (ts : List Track) (acc : List (String × Nat)),
      (acc.map Prod.fst).Nodup → ((ts.foldl (countStep field) acc).map Prod.fst).Nodup := by
  intro ts
  induction ts with
  | nil => exact fun acc h => h
  | cons t ts ih =>
    intro acc h
    rw [List.foldl_cons]
    apply ih
    rcases countStep_keys field acc t with hsame | ⟨v, _, _, hvmem, hkeys⟩
    · rw [hsame]; exact h
    · rw [hkeys]
      simp [List.nodup_append, h, hvmem]

theorem keys_foldl_append (field : Track → Option String) :
    ∀ (ts : List Track) (acc : List (String × Nat)),
      ∃ rest, (ts.foldl (countStep field) acc).map Prod.fst = acc.map Prod.fst ++ rest := by
  intro ts
  induction ts with
  | nil => exact fun acc => ⟨[], by simp⟩
  | cons t ts ih =>
    intro acc
    rw [List.foldl_cons]
    obtain ⟨r1, hr1⟩ := ih (countStep field acc t)
    rcases countStep_keys field acc t with hsame | ⟨v, _, _, _, hkeys⟩
    · exact ⟨r1, by rw [hr1, hsame]⟩
    · exact ⟨[v] ++ r1, by rw [hr1, hkeys, List.append_assoc]⟩

theorem pair_sublist_of_mem_append {α : Type _} (l₁ l₂ : List α) (a b : α)
    (ha : a ∈ l₁) (hb : b ∈ l₂) : [a, b] <+ l₁ ++ l₂ := by
  have h1 : [a] <+ l₁ := List.singleton_sublist.mpr ha
  have h2 : [b] <+ l₂ := List.singleton_sublist.mpr hb
  simpa using List.Sublist.append h1 h2

theorem keys_encounter_order (field : Track → Option String) :
    ∀ (ts : List Track) (acc : List (String × Nat)) (s₁ s₂ : String),
      s₁ ∉ acc.map Prod.fst → s₂ ∉ acc.map Prod.fst →
      s₁ ∈ (ts.foldl (countStep field) acc).map Prod.fst →
      s₂ ∈ (ts.foldl (countStep field) acc).map Prod.fst →
      firstIdx field ts s₁ < firstIdx field ts s₂ →
      [s₁, s₂] <+ (ts.foldl (countStep field) acc).map Prod.fst := by
  intro ts
  induction ts with
  | nil =>
    intro acc s₁ s₂ h1 h2 m1 m2 hidx
    exact absurd m1 h1
  | cons t ts ih =>
    intro acc s₁ s₂ h1 h2 m1 m2 hidx
    have hs1ne : s₁ ≠ "" := by
      rcases keys_foldl_mem field (t :: ts) acc s₁ m1 with h | ⟨_, _, _, hne⟩
      · exact absurd h h1
      · exact hne
    have hs2ne : s₂ ≠ "" := by
      rcases keys_foldl_mem field (t :: ts) acc s₂ m2 with h | ⟨_, _, _, hne⟩
      · exact absurd h h2
      · exact hne
    rw [List.foldl_cons] at m1 m2 ⊢
    cases hft : field t with
    | none =>
      have hstep : countStep field acc t = acc := by simp [countStep, hft]
      rw [hstep] at m1 m2 ⊢
      have hp1 : (field t == some s₁) = false := by rw [hft]; rfl
      have hp2 : (field t == some s₂) = false := by rw [hft]; rfl
      have e1 : firstIdx field (t :: ts) s₁ = firstIdx field ts s₁ + 1 := by
        simp [firstIdx, List.findIdx_cons, hp1]
      have e2 : firstIdx field (t :: ts) s₂ = firstIdx field ts s₂ + 1 := by
        simp [firstIdx, List.findIdx_cons, hp2]
      exact ih acc s₁ s₂ h1 h2 m1 m2 (by omega)
    | some v =>
      by_cases h2v : v = s₂
      · subst h2v
        have hp2 : (field t == some v) = true := by rw [hft]; simp
        have e2 : firstIdx field (t :: ts) v = 0 := by
          simp [firstIdx, List.findIdx_cons, hp2]
        omega
      · by_cases h1v : v = s₁
        · subst h1v
          have hstep : countStep field acc t = bump acc v := by
            simp [countStep, hft, hs1ne]
          rw [hstep] at m2 ⊢
          have hkeys : (bump acc v).map Prod.fst = acc.map Prod.fst ++ [v] := by
            rw [bump_keys, if_neg h1]
          obtain ⟨rest, hrest⟩ := keys_foldl_append field ts (bump acc v)
          have hm1' : v ∈ (bump acc v).map Prod.fst := by
            rw [hkeys]
            simp
          have hs2notacc' : s₂ ∉ (bump acc v).map Prod.fst := by
            rw [hkeys]
            intro hmem
            rcases List.mem_append.mp hmem with h | h
            · exact h2 h
            · have hsv : s₂ = v := by simpa using h
              exact h2v hsv.symm
          have hm2'' : s₂ ∈ rest := by
            rw [hrest] at m2
            rcases List.mem_append.mp m2 with h | h
            · exact absurd h hs2notacc'
            · exact h
          rw [hrest]
          exact pair_sublist_of_mem_append _ _ _ _ hm1' hm2''
        · have hp1 : (field t == some s₁) = false := by
            rw [hft]
            simp [h1v]
          have hp2 : (field t == some s₂) = false := by
            rw [hft]
            simp [h2v]
          have hnot1 : s₁ ∉ (countStep field acc t).map Prod.fst := by
            rcases countStep_keys field acc t with hsame | ⟨w, hw, _, _, hkeys⟩
            · rw [hsame]
              exact h1
            · rw [hkeys]
              intro hmem
              rcases List.mem_append.mp hmem with h | h
              · exact h1 h
              · have hs : s₁ = w := by simpa using h
                have hwv : w = v := by
                  have := hw.symm.trans hft
                  injection this
                exact h1v ((hs.trans hwv).symm)
          have hnot2 : s₂ ∉ (countStep field acc t).map Prod.fst := by
            rcases countStep_keys field acc t with hsame | ⟨w, hw, _, _, hkeys⟩
            · rw [hsame]
              exact h2
            · rw [hkeys]
              intro hmem
              rcases List.mem_append.mp hmem with h | h
              · exact h2 h
              · have hs : s₂ = w := by simpa using h
                have hwv : w = v := by
                  have := hw.symm.trans hft
                  injection this
                exact h2v ((hs.trans hwv).symm)
          have e1 : firstIdx field (t :: ts) s₁ = firstIdx field ts s₁ + 1 := by
            simp [firstIdx, List.findIdx_cons, hp1]
          have e2 : firstIdx field (t :: ts) s₂ = firstIdx field ts s₂ + 1 := by
            simp [firstIdx, List.findIdx_cons, hp2]
          exact ih (countStep field acc t) s₁ s₂ hnot1 hnot2 m1 m2 (by omega)

theorem pair_sublist_entries :
    ∀ (l : List (String × Nat)), (l.map Prod.fst).Nodup →
      ∀ {e₁ e₂ : String × Nat}, e₁ ∈ l → e₂ ∈ l →
      [e₁.1, e₂.1] <+ l.map Prod.fst → [e₁, e₂] <+ l := by
  intro l
  induction l with
  | nil =>
    intro _ e₁ e₂ h1
    cases h1
  | cons x xs ih =>
    intro hn e₁ e₂ h1 h2 hk
    have hne : e₁.1 ≠ e₂.1 := by
      have hnd := hn.sublist hk
      simpa using hnd
    have hn' : x.1 ∉ xs.map Prod.fst ∧ (xs.map Prod.fst).Nodup := by
      rw [List.map_cons, List.nodup_cons] at hn
      exact hn
    rcases List.mem_cons.mp h1 with rfl | h1'
    · have h2' : e₂ ∈ xs := by
        rcases List.mem_cons.mp h2 with rfl | h
        · exact absurd rfl hne
        · exact h
      exact List.Sublist.cons₂ _ (List.singleton_sublist.mpr h2')
    · have hk1mem : e₁.1 ∈ xs.map Prod.fst := List.mem_map_of_mem Prod.fst h1'
      have hxne : x.1 ≠ e₁.1 := by
        intro h
        exact hn'.1 (h ▸ hk1mem)
      have hk' : [e₁.1, e₂.1] <+ xs.map Prod.fst := by
        rw [List.map_cons] at hk
        rcases List.sublist_cons_iff.mp hk with h | ⟨r, hr, hrs⟩
        · exact h
        · exfalso
          apply hxne
          injection hr with hr1 hr2
          exact hr1.symm
      have h2' : e₂ ∈ xs := by
        rcases List.mem_cons.mp h2 with rfl | h
        · exfalso
          apply hn'.1
          exact hk'.subset (by simp)
        · exact h
      exact List.Sublist.cons x (ih hn'.2 h1' h2' hk')

theorem pair_sublist_take {α : Type _} :
    ∀ (l : List α) (n : Nat) {a b : α}, l.Nodup → [a, b] <+ l → b ∈ l.take n →
      [a, b] <+ l.take n := by
  intro l
  induction l with
  | nil =>
    intro n a b _ hab
    simp at hab
  | cons x xs ih =>
    intro n a b hn hab hbmem
    cases n with
    | zero => simp at hbmem
    | succ m =>
      rw [List.take_succ_cons] at hbmem ⊢
      have hane : a ≠ b := by
        have := hn.sublist hab
        simpa using this
      have hxs : xs.Nodup := (List.nodup_cons.mp hn).2
      have hxnot : x ∉ xs := (List.nodup_cons.mp hn).1
      by_cases hax : a = x
      · subst hax
        have hb_xs : b ∈ xs := by
          rcases List.sublist_cons_iff.mp hab with h | ⟨r, hr, hrs⟩
          · exact h.subset (by simp)
          · injection hr with hr1 hr2
            subst hr2
            exact hrs.subset (by simp)
        have hb_take : b ∈ xs.take m := by
          rcases List.mem_cons.mp hbmem with rfl | h
          · exact absurd rfl hane
          · exact h
        exact List.Sublist.cons₂ _ (List.singleton_sublist.mpr hb_take)
      · have hab' : [a, b] <+ xs := by
          rcases List.sublist_cons_iff.mp hab with h | ⟨r, hr, hrs⟩
          · exact h
          · exfalso
            apply hax
            injection hr with hr1 hr2
        have hb_xs : b ∈ xs := hab'.subset (by simp)
        have hb_take : b ∈ xs.take m := by
          rcases List.mem_cons.mp hbmem with rfl | h
          · exact absurd hb_xs hxnot
          · exact h
        exact List.Sublist.cons x (ih m hxs hab' hb_take)

theorem countLE_trans (a b c : String × Nat) (hab : countLE a b = true)
    (hbc : countLE b c = true) : countLE a c = true := by
  simp only [countLE, decide_eq_true_eq] at hab hbc ⊢
  omega

theorem countLE_total (a b : String × Nat) : (countLE a b || countLE b a) = true := by
  simp only [countLE, Bool.or_eq_true, decide_eq_true_eq]
  omega

theorem topByField_spec (field : Track → Option String) :
    TopSpecFor field (topByField field) := by
  intro tracks k
  have hperm : sortedCounts field tracks ~ fieldCounts field tracks :=
    List.mergeSort_perm _ _
  have hsorted : (sortedCounts field tracks).Pairwise (fun x y => countLE x y = true) :=
    List.sorted_mergeSort countLE_trans countLE_total _
  have hkeysnodup : ((fieldCounts field tracks).map Prod.fst).Nodup :=
    keys_foldl_nodup field tracks [] (by simp)
  have hsortkeys : ((sortedCounts field tracks).map Prod.fst).Nodup :=
    ((hperm.map Prod.fst).nodup_iff).mpr hkeysnodup
  have hnodup_sorted : (sortedCounts field tracks).Nodup := hsortkeys.of_map
  refine ⟨?_, ?_, ?_, ?_, ?_⟩
  · simp only [topByField]
    rw [List.length_take]
    exact min_le_left _ _
  · intro e he
    have hecounts : e ∈ fieldCounts field tracks :=
      hperm.subset (List.mem_of_mem_take he)
    have hkey : e.1 ∈ (fieldCounts field tracks).map Prod.fst :=
      List.mem_map_of_mem Prod.fst hecounts
    rcases keys_foldl_mem field tracks [] e.1 hkey with habs | ⟨t, ht, hf, _⟩
    · simp at habs
    · exact ⟨t, ht, hf⟩
  · refine List.Pairwise.imp ?_ (hsorted.sublist (List.take_sublist k _))
    intro a b h
    simpa [countLE] using h
  · intro e₁ h1 hnot e₂ h2
    have h1s : e₁ ∈ sortedCounts field tracks := hperm.mem_iff.mpr h1
    have hsplit := List.take_append_drop k (sortedCounts field tracks)
    have h1drop : e₁ ∈ (sortedCounts field tracks).drop k := by
      rw [← hsplit] at h1s
      rcases List.mem_append.mp h1s with h | h
      · exact absurd h hnot
      · exact h
    have hpair := hsorted
    rw [← hsplit] at hpair
    have hcross := (List.pairwise_append.mp hpair).2.2 e₂ h2 e₁ h1drop
    simpa [countLE] using hcross
  · intro e₁ e₂ h1 h2 hcount hidx
    have h1c : e₁ ∈ fieldCounts field tracks :=
      hperm.subset (List.mem_of_mem_take h1)
    have h2c : e₂ ∈ fieldCounts field tracks :=
      hperm.subset (List.mem_of_mem_take h2)
    have hk1 : e₁.1 ∈ (fieldCounts field tracks).map Prod.fst :=
      List.mem_map_of_mem Prod.fst h1c
    have hk2 : e₂.1 ∈ (fieldCounts field tracks).map Prod.fst :=
      List.mem_map_of_mem Prod.fst h2c
    have hkeypair : [e₁.1, e₂.1] <+ (fieldCounts field tracks).map Prod.fst :=
      keys_encounter_order field tracks [] e₁.1 e₂.1 (by simp) (by simp) hk1 hk2 hidx
    have hepair : [e₁, e₂] <+ fieldCounts field tracks :=
      pair_sublist_entries _ hkeysnodup h1c h2c hkeypair
    have hsorted_pair : [e₁, e₂] <+ sortedCounts field tracks := by
      apply List.sublist_mergeSort countLE_trans countLE_total ?_ hepair
      refine List.pairwise_pair.mpr ?_
      simp [countLE, hcount]
    exact pair_sublist_take _ k hnodup_sorted hsorted_pair h2

/-- C5: each of `getTopArtists`, `getTopAlbums` and `getTopFolders` returns at
most `k` entries, counts only tracks whose respective field is present, orders
entries by non-increasing count, every counted-but-omitted entry's count is at
most every returned count, and entries with equal counts appear in the order
their key was first encountered in the input list. -/
theorem topAggregates_spec :
    TopSpecFor (fun t => t.artist) getTopArtists ∧
    TopSpecFor (fun t => t.album) getTopAlbums ∧
    TopSpecFor (fun t => t.folder) getTopFolders :=
  ⟨topByField_spec _, topByField_spec _, topByField_spec _⟩
